import Mathlib

/-!
Verification of `strategies.py` from `agenttux/anarchychess-bot`.

The file shallowly embeds the decision logic of the example strategies.
The external chess library (legality oracle) and the external analysis
engine (evaluation oracle) are modelled as oracle data carried by a
`Position`: all of their queries (`legal_moves`, `san`, `is_en_passant`,
`board_fen`, `analyse`) are functions of the current board state, which
is the base position together with the stack of moves pushed since
`search` was entered.  Scores (`result["score"].relative`) are modelled
as integers with their total order.  Times are rationals (Python floats
hold the exact values of interest here: 0.1, 0.01, divisions).
-/

/-- A chess move, identified by its UCI string (`str(move)` in python-chess). -/
structure Move where
  uci : String
deriving DecidableEq, Repr

/-- Oracle data of a board position.  `sanAt`, `isEpAt`, `fenAt` and the
evaluation oracle `evalAt` answer the chess library's queries when the
relative move stack (moves pushed since `search` was entered) is the
given list, most recent move first.  `legal` is the legal-move list at
entry (the code materialises `tuple(board.legal_moves)` once, before
any push). -/
structure Position where
  legal : List Move
  sanAt : List Move → Move → String
  isEpAt : List Move → Move → Bool
  fenAt : List Move → String
  evalAt : List Move → ℚ → Int
  turn : Bool

/-- The `timeLeft` argument of `Anarchy.search`: either a remaining time in
milliseconds, or the `chess.engine.Limit` sentinel passed on the first move. -/
inductive TimeLeft where
  | ms (t : ℚ)
  | limit
deriving DecidableEq, Repr

/-- What `Anarchy.search` can return: a `Move` from the legal-move list, a raw
UCI string (the hard-coded opening replies are the string literals `"e2e4"`,
`"g1f3"`, `"f1b5"`), or Python `None` (the initial value of `bestMove`). -/
inductive SearchResult where
  | mv (m : Move)
  | uci (s : String)
  | nomove
deriving DecidableEq, Repr

/-- `board.pop()`: removes the most recent pushed move. -/
def popStack : List Move → List Move
  | [] => []
  | _ :: s => s

/-- Piece-placement string of the initial position (line 156). -/
def fenStart : String := "rnbqkbnr/pppppppp/8/8/8/8/PPPPPPPP/RNBQKBNR"

/-- Piece-placement string after 1.e4 e5 (line 160). -/
def fenRuy1 : String := "rnbqkbnr/pppp1ppp/8/4p3/4P3/8/PPPP1PPP/RNBQKBNR"

/-- Piece-placement string after 1.e4 e5 2.Nf3 Nc6 (line 163). -/
def fenRuy2 : String := "r1bqkbnr/pppp1ppp/2n5/4p3/4P3/5N2/PPPP1PPP/RNBQKB1R"

/-- Line 167: `board.san(move) == "Ke2" or ... == "Ke7" or ... == "Kxe2" or ... == "Kxe7"`. -/
def isBongcloud (s : String) : Bool :=
  s = "Ke2" || s = "Ke7" || s = "Kxe2" || s = "Kxe7"

/-- Line 171: `board.san(move)[0] == "R" and board.san(move)[-2:] == "a4"`.
Python `s[-2:]` returns the whole string when it is shorter than 2
characters, as does `String.takeRight`. -/
def isBannedSan (s : String) : Bool :=
  s.front = 'R' && s.takeRight 2 = "a4"

/-- `Anarchy.evaluate` (lines 122-125): queries the engine on the current
board with limit `timeLimit - 0.01` and yields the relative score.  We
also return the oracle-call record (board stack at the call, time limit
passed to `analyse`). -/
def Anarchy.evaluate (p : Position) (stack : List Move) (timeLimit : ℚ) :
    Int × (List Move × ℚ) :=
  (p.evalAt stack (timeLimit - 1/100), (stack, timeLimit - 1/100))

/-- The `searchTime` computation of `Anarchy.search` (lines 132-141):
base 0.1 s; when `timeLeft` is a number it is divided by 1000 (ms → s)
and if `len(legalMoves) * 0.1` exceeds a tenth of the remaining time the
per-move time shrinks to `(timeLeft / 10) / len(legalMoves)`; the
`chess.engine.Limit` sentinel is never divided. -/
def Anarchy.searchTimeOf : TimeLeft → Nat → ℚ
  | .limit, _ => 1/10
  | .ms t, n =>
      let tl := t / 1000
      if (n : ℚ) * (1/10) > tl / 10 then (tl / 10) / (n : ℚ) else 1/10

/-- One comparison step of the best-move bookkeeping (lines 178-180):
`if bestEvaluation is None or bestEvaluation > evaluation`. -/
def stepBest (f : Move → Int) (best : Option (Int × Move)) (m : Move) :
    Option (Int × Move) :=
  match best with
  | none => some (f m, m)
  | some (b, bm) => if b > f m then some (f m, m) else some (b, bm)

/-- Line 185: `return bestMove` — a `Move` when one was recorded, else `None`. -/
def finishBest : Option (Int × Move) → SearchResult
  | some (_, m) => .mv m
  | none => .nomove

/-- The candidate loop of `Anarchy.search` (lines 148-185), with the board's
relative move stack and the list of evaluation-oracle calls made explicit.
Per iteration, in source order: the en-passant short circuit, the three
opening-snapshot returns, the bongcloud return, the rook-a4 filter, and
otherwise push / evaluate / compare / pop. -/
def Anarchy.go (p : Position) (searchTime : ℚ) :
    List Move → List Move → List (List Move × ℚ) → Option (Int × Move) →
    SearchResult × List Move × List (List Move × ℚ)
  | [], stack, calls, best => (finishBest best, stack, calls)
  | m :: rest, stack, calls, best =>
      if p.isEpAt stack m then (.mv m, stack, calls)
      else if p.fenAt stack = fenStart then (.uci "e2e4", stack, calls)
      else if p.fenAt stack = fenRuy1 then (.uci "g1f3", stack, calls)
      else if p.fenAt stack = fenRuy2 then (.uci "f1b5", stack, calls)
      else if isBongcloud (p.sanAt stack m) then (.mv m, stack, calls)
      else if isBannedSan (p.sanAt stack m) = false then
        let stack2 := m :: stack
        let r := Anarchy.evaluate p stack2 searchTime
        Anarchy.go p searchTime rest (popStack stack2) (calls ++ [r.2])
          (stepBest (fun mv => (Anarchy.evaluate p (mv :: stack) searchTime).1) best m)
      else
        Anarchy.go p searchTime rest stack calls best

/-- `Anarchy.search` (lines 127-185).  Returns the chosen result, the final
relative move stack of the board, and the list of evaluation-oracle calls. -/
def Anarchy.search (p : Position) (timeLeft : TimeLeft) :
    SearchResult × List Move × List (List Move × ℚ) :=
  Anarchy.go p (Anarchy.searchTimeOf timeLeft p.legal.length) p.legal [] [] none

/-- `RandomMove.search` (lines 95-97): `random.choice(list(board.legal_moves))`,
modelled with an arbitrary draw `r` reduced modulo the length; `none` models
the `IndexError` raised on an empty sequence. -/
def RandomMove.search (p : Position) (r : Nat) : Option Move :=
  p.legal.get? (r % p.legal.length)

/-- `Alphabetical.search` (lines 100-104): sort the legal moves by their SAN
string (queried on the entry board state) and take the first. -/
def Alphabetical.search (p : Position) : Option Move :=
  (p.legal.mergeSort (fun a b => p.sanAt [] a ≤ p.sanAt [] b)).head?

/-- `FirstMove.search` (lines 107-113): sort the legal moves by `str(move)`
(the UCI string) and take the first. -/
def FirstMove.search (p : Position) : Option Move :=
  (p.legal.mergeSort (fun a b => a.uci ≤ b.uci)).head?

/-- `MinimalEngine.search_with_ponder` (lines 63-69): pick `wtime` when it is
white's turn and `btime` otherwise, drop the increments, delegate to
`search`.  The concrete strategy's `search` is a parameter. -/
def MinimalEngine.search_with_ponder {T I R : Type}
    (searchFn : Position → T → Bool → R) (p : Position)
    (wtime btime : T) (winc binc : I) (ponder : Bool) : R :=
  let _ := winc
  let _ := binc
  let timeleft := if p.turn then wtime else btime
  searchFn p timeleft ponder

/-- The result of a Python attribute access: either a plain stored value or a
bound callable. -/
inductive AttrVal (V Args Ret : Type) where
  | value (v : V)
  | callable (f : Args → Ret)

/-- `FillerEngine` (lines 14-37).  Its `__init__` stores the instance
attributes `id`, `name` and `main_engine` in the instance dictionary;
`main_engine.notify` is the owning strategy's `notify`.  `classAttrs` is
the class-level lookup oracle: it answers `some` exactly on the names that
attribute lookup finds on the class or its bases — the methods `__init__`
and `__getattr__` defined in the class body, and the attributes inherited
from `object` (`__class__`, `__dict__`, `__str__`, ...).  `V` stands for
attribute values (dicts, strings, bound methods, ...), `Args` for a
`(*args, **kwargs)` package, `Ret` for `notify`'s return type. -/
structure FillerEngine (V Args Ret : Type) where
  idVal : V
  nameVal : V
  mainVal : V
  classAttrs : String → Option V
  mainNotify : String → Args → Ret

/-- Python attribute lookup on a `FillerEngine`: normal lookup — the
instance dictionary (`id`, `name`, `main_engine`, set in `__init__`,
lines 22-27) together with the class-level attributes — is tried first and
yields the stored or class value; `__getattr__` (lines 29-37) fires only
when normal lookup fails, returning a closure forwarding
`(method_name, *args, **kwargs)` to `main_engine.notify`.  (CPython
consults the type's data descriptors before the instance dictionary, but
no instance attribute of a `FillerEngine` shadows a class attribute, so
the order below is observationally the same.) -/
def FillerEngine.getattribute {V Args Ret : Type}
    (e : FillerEngine V Args Ret) (attr : String) : AttrVal V Args Ret :=
  if attr = "id" then .value e.idVal
  else if attr = "name" then .value e.nameVal
  else if attr = "main_engine" then .value e.mainVal
  else
    match e.classAttrs attr with
    | some v => .value v
    | none => .callable (fun args => e.mainNotify attr args)

/-! Concrete positions used as witnesses and counterexamples.  Each is a
model of a real board: the oracle fields record what the chess library
answers on that board. -/

/-- The move 1.a3 (a legal move of the initial position). -/
def mvA3 : Move := ⟨"a2a3"⟩

/-- The knight move Ng1-f3. -/
def mvNf3 : Move := ⟨"g1f3"⟩

/-- The en-passant capture e5xd6. -/
def mvEp : Move := ⟨"e5d6"⟩

/-- The rook move Rb4-a4 (gives check when the black king is on a8). -/
def mvRa4 : Move := ⟨"b4a4"⟩

/-- The rook move Ra1-a4. -/
def mvRa4b : Move := ⟨"a1a4"⟩

/-- The knight move Nb1-c3. -/
def mvNc3 : Move := ⟨"b1c3"⟩

/-- The knight move Nb1-a3. -/
def mvNa3 : Move := ⟨"b1a3"⟩

/-- The initial chess position, with its legal-move list truncated to the
single candidate 1.a3 (enough for the opening-book short circuit, which
fires on the first loop iteration). -/
def cposStart : Position :=
  { legal := [mvA3]
    sanAt := fun _ _ => "a3"
    isEpAt := fun _ _ => false
    fenAt := fun _ => fenStart
    evalAt := fun _ _ => 0
    turn := true }

/-- A position (after 1.e4 c5 2.e5 d5) where the en-passant capture exd6 is
available; candidate list: Nf3 first, then the en-passant capture. -/
def cposEp : Position :=
  { legal := [mvNf3, mvEp]
    sanAt := fun _ m => if m = mvEp then "exd6" else "Nf3"
    isEpAt := fun _ m => m = mvEp
    fenAt := fun _ => "rnbqkbnr/pp2pppp/8/2ppP3/8/8/PPPP1PPP/RNBQKBNR"
    evalAt := fun _ _ => 0
    turn := true }

/-- A position (white Rb4 and Ka1, black Ka8) whose only candidate is the
checking rook move Rb4-a4, SAN `"Ra4+"`. -/
def cposRa4 : Position :=
  { legal := [mvRa4]
    sanAt := fun _ _ => "Ra4+"
    isEpAt := fun _ _ => false
    fenAt := fun _ => "k7/8/8/8/1R6/8/8/K7"
    evalAt := fun _ _ => 0
    turn := true }

/-- A position whose only candidate is the quiet rook move Ra1-a4, SAN
`"Ra4"`, which matches the banned-move filter. -/
def cposBanned : Position :=
  { legal := [mvRa4b]
    sanAt := fun _ _ => "Ra4"
    isEpAt := fun _ _ => false
    fenAt := fun _ => "k7/8/8/8/8/8/8/R3K3"
    evalAt := fun _ _ => 0
    turn := true }

/-- A position with three quiet knight candidates whose post-move relative
scores are 5, 3, 3: the scored fallback must pick the second candidate
(the earliest one attaining the minimal score). -/
def cposC5 : Position :=
  { legal := [mvNf3, mvNc3, mvNa3]
    sanAt := fun _ m => if m = mvNf3 then "Nf3" else if m = mvNc3 then "Nc3" else "Na3"
    isEpAt := fun _ _ => false
    fenAt := fun _ => "rnbqkb1r/pppppppp/5n2/8/8/8/PPPPPPPP/RNBQKBNR"
    evalAt := fun st _ => if st = [mvNf3] then 5 else 3
    turn := true }


/-! Helper lemmas about the candidate loop. -/

/-- The score function used by the loop when the stack is at the entry
state: relative score reported by the oracle after pushing just `m`. -/
def postScore (p : Position) (t : ℚ) (m : Move) : Int :=
  p.evalAt [m] (t - 1/100)

/-- The survivors of the banned-move filter, in enumeration order. -/
def surv (p : Position) (l : List Move) : List Move :=
  l.filter (fun m => !isBannedSan (p.sanAt [] m))

theorem Anarchy.go_stack (p : Position) (t : ℚ) :
    ∀ (l stack : List Move) (calls : List (List Move × ℚ))
      (best : Option (Int × Move)),
      (Anarchy.go p t l stack calls best).2.1 = stack := by
  intro l
  induction l with
  | nil => intro stack calls best; rfl
  | cons m rest ih =>
      intro stack calls best
      simp only [Anarchy.go]
      split_ifs with h1 h2 h3 h4 h5 h6
      · rfl
      · rfl
      · rfl
      · rfl
      · rfl
      · exact ih (popStack (m :: stack)) _ _
      · exact ih stack calls best

/-- Loop unfolding: the en-passant short circuit (lines 150-153). -/
theorem Anarchy.go_cons_ep (p : Position) (t : ℚ) (m : Move) (rest stack : List Move)
    (calls : List (List Move × ℚ)) (best : Option (Int × Move))
    (hep : p.isEpAt stack m = true) :
    Anarchy.go p t (m :: rest) stack calls best = (.mv m, stack, calls) := by
  simp [Anarchy.go, hep]

/-- Loop unfolding: a banned candidate is skipped, nothing else changes
(lines 171, 182-183). -/
theorem Anarchy.go_cons_skip (p : Position) (t : ℚ) (m : Move) (rest stack : List Move)
    (calls : List (List Move × ℚ)) (best : Option (Int × Move))
    (hep : p.isEpAt stack m = false)
    (hf1 : p.fenAt stack ≠ fenStart) (hf2 : p.fenAt stack ≠ fenRuy1)
    (hf3 : p.fenAt stack ≠ fenRuy2)
    (hbong : isBongcloud (p.sanAt stack m) = false)
    (hban : isBannedSan (p.sanAt stack m) = true) :
    Anarchy.go p t (m :: rest) stack calls best =
      Anarchy.go p t rest stack calls best := by
  simp [Anarchy.go, hep, hf1, hf2, hf3, hbong, hban]

/-- Loop unfolding: a surviving candidate is pushed, evaluated, compared and
popped (lines 173-181). -/
theorem Anarchy.go_cons_score (p : Position) (t : ℚ) (m : Move) (rest stack : List Move)
    (calls : List (List Move × ℚ)) (best : Option (Int × Move))
    (hep : p.isEpAt stack m = false)
    (hf1 : p.fenAt stack ≠ fenStart) (hf2 : p.fenAt stack ≠ fenRuy1)
    (hf3 : p.fenAt stack ≠ fenRuy2)
    (hbong : isBongcloud (p.sanAt stack m) = false)
    (hban : isBannedSan (p.sanAt stack m) = false) :
    Anarchy.go p t (m :: rest) stack calls best =
      Anarchy.go p t rest stack (calls ++ [(m :: stack, t - 1/100)])
        (stepBest (fun mv => (Anarchy.evaluate p (mv :: stack) t).1) best m) := by
  simp [Anarchy.go, hep, hf1, hf2, hf3, hbong, hban, popStack, Anarchy.evaluate]

theorem postScore_eta (p : Position) (t : ℚ) :
    (fun mv => (Anarchy.evaluate p (mv :: []) t).1) = postScore p t := rfl

/-- When no short-circuit rule fires on any candidate of `l`, the loop at the
entry state is a best-score fold over the banned-filter's survivors, with
exactly one oracle call per survivor, in enumeration order. -/
theorem Anarchy.go_noShort (p : Position) (t : ℚ)
    (h1 : p.fenAt [] ≠ fenStart) (h2 : p.fenAt [] ≠ fenRuy1)
    (h3 : p.fenAt [] ≠ fenRuy2) :
    ∀ (l : List Move) (calls : List (List Move × ℚ))
      (best : Option (Int × Move)),
      (∀ m ∈ l, p.isEpAt [] m = false) →
      (∀ m ∈ l, isBongcloud (p.sanAt [] m) = false) →
      Anarchy.go p t l [] calls best =
        (finishBest ((surv p l).foldl (stepBest (postScore p t)) best), [],
         calls ++ (surv p l).map (fun m => (([m] : List Move), t - 1/100))) := by
  intro l
  induction l with
  | nil => intro calls best _ _; simp [Anarchy.go, surv]
  | cons m rest ih =>
      intro calls best hep hbong
      have hepm : p.isEpAt [] m = false := hep m (by simp)
      have hbongm : isBongcloud (p.sanAt [] m) = false := hbong m (by simp)
      have heprest : ∀ x ∈ rest, p.isEpAt [] x = false :=
        fun x hx => hep x (by simp [hx])
      have hbongrest : ∀ x ∈ rest, isBongcloud (p.sanAt [] x) = false :=
        fun x hx => hbong x (by simp [hx])
      by_cases hban : isBannedSan (p.sanAt [] m) = false
      · rw [Anarchy.go_cons_score p t m rest [] calls best hepm h1 h2 h3 hbongm hban,
          postScore_eta, ih _ _ heprest hbongrest]
        simp [surv, List.filter_cons, hban]
      · have hban' : isBannedSan (p.sanAt [] m) = true := by
          revert hban; cases isBannedSan (p.sanAt [] m) <;> simp
        rw [Anarchy.go_cons_skip p t m rest [] calls best hepm h1 h2 h3 hbongm hban',
          ih _ _ heprest hbongrest]
        simp [surv, List.filter_cons, hban']

/-- The champion left by the comparison chain of lines 178-180 when the
current champion is `c` and the remaining candidates are the list: a later
candidate replaces the champion exactly when its score is strictly
smaller. -/
def bestOf (f : Move → Int) (c : Move) : List Move → Move
  | [] => c
  | m :: rest => if f c > f m then bestOf f m rest else bestOf f c rest

theorem foldl_stepBest (f : Move → Int) :
    ∀ (l : List Move) (c : Move),
      l.foldl (stepBest f) (some (f c, c)) = some (f (bestOf f c l), bestOf f c l) := by
  intro l
  induction l with
  | nil => intro c; rfl
  | cons m rest ih =>
      intro c
      by_cases h : f c > f m
      · simp [List.foldl_cons, stepBest, if_pos h, bestOf, ih]
      · simp [List.foldl_cons, stepBest, if_neg h, bestOf, ih]

theorem foldl_stepBest_none (f : Move → Int) (c : Move) (l : List Move) :
    (c :: l).foldl (stepBest f) none = some (f (bestOf f c l), bestOf f c l) := by
  rw [List.foldl_cons]
  show l.foldl (stepBest f) (some (f c, c)) = _
  exact foldl_stepBest f l c

/-- `bestOf f c l` is the earliest element of `c :: l` attaining the minimal
score: every element before it scores strictly worse (greater), every element
after it scores no better (no smaller). -/
theorem bestOf_spec (f : Move → Int) :
    ∀ (l : List Move) (c : Move),
      ∃ pre post, c :: l = pre ++ bestOf f c l :: post ∧
        (∀ x ∈ pre, f (bestOf f c l) < f x) ∧
        (∀ x ∈ post, f (bestOf f c l) ≤ f x) := by
  intro l
  induction l with
  | nil =>
      intro c
      exact ⟨[], [], by simp [bestOf], by simp, by simp⟩
  | cons m rest ih =>
      intro c
      by_cases h : f c > f m
      · obtain ⟨pre, post, heq, hpre, hpost⟩ := ih m
        have hbm : f (bestOf f m rest) ≤ f m := by
          cases pre with
          | nil =>
              have : m = bestOf f m rest := by
                have := heq
                simp at this
                exact this.1
              rw [← this]
          | cons a pre2 =>
              have ha : a = m := by
                have := heq
                simp at this
                exact this.1.symm
              have : f (bestOf f m rest) < f m := by
                have := hpre a (by simp)
                rw [ha] at this
                exact this
              exact le_of_lt this
        refine ⟨c :: pre, post, ?_, ?_, ?_⟩
        · simp [bestOf, if_pos h, heq]
        · intro x hx
          rcases List.mem_cons.mp hx with hx | hx
          · subst hx
            simp only [bestOf, if_pos h]
            exact lt_of_le_of_lt hbm h
          · simp only [bestOf, if_pos h]
            exact hpre x hx
        · intro x hx
          simp only [bestOf, if_pos h]
          exact hpost x hx
      · obtain ⟨pre, post, heq, hpre, hpost⟩ := ih c
        have hcm : f c ≤ f m := le_of_not_lt h
        cases pre with
        | nil =>
            have hbc : bestOf f c rest = c := by
              have := heq
              simp at this
              exact this.1.symm
            refine ⟨[], m :: post, ?_, ?_, ?_⟩
            · have hrest : rest = post := by
                have := heq
                simp at this
                exact this.2
              have hb2 : bestOf f c (m :: rest) = c := by
                simp only [bestOf, if_neg h]
                exact hbc
              rw [hb2, List.nil_append, hrest]
            · simp
            · intro x hx
              rcases List.mem_cons.mp hx with hx | hx
              · subst hx
                simp only [bestOf, if_neg h]
                rw [hbc]
                exact hcm
              · simp only [bestOf, if_neg h]
                exact hpost x hx
        | cons a pre2 =>
            have ha : a = c := by
              have := heq
              simp at this
              exact this.1.symm
            have hrest : rest = pre2 ++ bestOf f c rest :: post := by
              have := heq
              simp at this
              exact this.2
            have hbc : f (bestOf f c rest) < f c := by
              have := hpre a (by simp)
              rw [ha] at this
              exact this
            refine ⟨c :: m :: pre2, post, ?_, ?_, ?_⟩
            · have hb2 : bestOf f c (m :: rest) = bestOf f c rest := by
                simp only [bestOf, if_neg h]
              rw [hb2]
              conv_lhs => rw [hrest]
              simp
            · intro x hx
              rcases List.mem_cons.mp hx with hx | hx
              · subst hx
                simp only [bestOf, if_neg h]
                exact hbc
              rcases List.mem_cons.mp hx with hx | hx
              · subst hx
                simp only [bestOf, if_neg h]
                exact lt_of_lt_of_le hbc hcm
              · simp only [bestOf, if_neg h]
                exact hpre x (by simp [ha, hx])
            · intro x hx
              simp only [bestOf, if_neg h]
              exact hpost x hx

/-- If the candidate list is `l1 ++ e :: l2` where `e` is the first
en-passant capture and no opening snapshot matches and no earlier candidate
is a bongcloud king move, the loop returns `e`, after one oracle call per
non-banned candidate of `l1` and none for `e` or anything after it. -/
theorem Anarchy.go_ep (p : Position) (t : ℚ)
    (h1 : p.fenAt [] ≠ fenStart) (h2 : p.fenAt [] ≠ fenRuy1)
    (h3 : p.fenAt [] ≠ fenRuy2) :
    ∀ (l1 : List Move) (e : Move) (l2 : List Move)
      (calls : List (List Move × ℚ)) (best : Option (Int × Move)),
      p.isEpAt [] e = true →
      (∀ m ∈ l1, p.isEpAt [] m = false) →
      (∀ m ∈ l1, isBongcloud (p.sanAt [] m) = false) →
      Anarchy.go p t (l1 ++ e :: l2) [] calls best =
        (.mv e, [],
         calls ++ (surv p l1).map (fun m => (([m] : List Move), t - 1/100))) := by
  intro l1
  induction l1 with
  | nil =>
      intro e l2 calls best he _ _
      rw [List.nil_append, Anarchy.go_cons_ep p t e l2 [] calls best he]
      simp [surv]
  | cons m rest ih =>
      intro e l2 calls best he hep hbong
      have hepm : p.isEpAt [] m = false := hep m (by simp)
      have hbongm : isBongcloud (p.sanAt [] m) = false := hbong m (by simp)
      have heprest : ∀ x ∈ rest, p.isEpAt [] x = false :=
        fun x hx => hep x (by simp [hx])
      have hbongrest : ∀ x ∈ rest, isBongcloud (p.sanAt [] x) = false :=
        fun x hx => hbong x (by simp [hx])
      rw [List.cons_append]
      by_cases hban : isBannedSan (p.sanAt [] m) = false
      · rw [Anarchy.go_cons_score p t m (rest ++ e :: l2) [] calls best
            hepm h1 h2 h3 hbongm hban,
          ih e l2 _ _ he heprest hbongrest]
        simp [surv, List.filter_cons, hban]
      · have hban' : isBannedSan (p.sanAt [] m) = true := by
          revert hban; cases isBannedSan (p.sanAt [] m) <;> simp
        rw [Anarchy.go_cons_skip p t m (rest ++ e :: l2) [] calls best
            hepm h1 h2 h3 hbongm hban',
          ih e l2 _ _ he heprest hbongrest]
        simp [surv, List.filter_cons, hban']

/-- As long as the placement string matches no opening snapshot and either
some candidate survives the banned filter or a best move is already
recorded, the loop ends in a `.mv` taken from the candidates or the
record. -/
theorem Anarchy.go_mv (p : Position) (t : ℚ) (legal : List Move)
    (h1 : p.fenAt [] ≠ fenStart) (h2 : p.fenAt [] ≠ fenRuy1)
    (h3 : p.fenAt [] ≠ fenRuy2) :
    ∀ (l : List Move) (calls : List (List Move × ℚ))
      (best : Option (Int × Move)),
      (∀ m ∈ l, m ∈ legal) →
      (∀ b bm, best = some (b, bm) → bm ∈ legal) →
      ((∃ m ∈ l, isBannedSan (p.sanAt [] m) = false) ∨ ∃ b bm, best = some (b, bm)) →
      ∃ mv ∈ legal, (Anarchy.go p t l [] calls best).1 = .mv mv := by
  intro l
  induction l with
  | nil =>
      intro calls best _ hbest hsome
      rcases hsome with ⟨m, hm, _⟩ | ⟨b, bm, hb⟩
      · exact absurd hm (by simp)
      · exact ⟨bm, hbest b bm hb, by rw [hb]; rfl⟩
  | cons m rest ih =>
      intro calls best hsub hbest hsome
      have hmlegal : m ∈ legal := hsub m (by simp)
      have hsubrest : ∀ x ∈ rest, x ∈ legal := fun x hx => hsub x (by simp [hx])
      by_cases hepm : p.isEpAt [] m = true
      · exact ⟨m, hmlegal, by rw [Anarchy.go_cons_ep p t m rest [] calls best hepm]⟩
      have hepm' : p.isEpAt [] m = false := by
        revert hepm; cases p.isEpAt [] m <;> simp
      by_cases hbongm : isBongcloud (p.sanAt [] m) = true
      · refine ⟨m, hmlegal, ?_⟩
        simp [Anarchy.go, hepm', h1, h2, h3, hbongm]
      have hbongm' : isBongcloud (p.sanAt [] m) = false := by
        revert hbongm; cases isBongcloud (p.sanAt [] m) <;> simp
      by_cases hban : isBannedSan (p.sanAt [] m) = false
      · rw [Anarchy.go_cons_score p t m rest [] calls best hepm' h1 h2 h3 hbongm' hban]
        refine ih _ _ hsubrest ?_ ?_
        · intro b bm hb
          cases best with
          | none =>
              simp [stepBest] at hb
              rw [← hb.2]
              exact hmlegal
          | some prev =>
              obtain ⟨pb, pm⟩ := prev
              have hpm : pm ∈ legal := hbest pb pm rfl
              by_cases hcmp : pb > (Anarchy.evaluate p (m :: []) t).1
              · simp [stepBest, if_pos hcmp] at hb
                rw [← hb.2]
                exact hmlegal
              · simp [stepBest, if_neg hcmp] at hb
                rw [← hb.2]
                exact hpm
        · right
          cases best with
          | none => exact ⟨_, _, rfl⟩
          | some prev =>
              obtain ⟨pb, pm⟩ := prev
              by_cases hcmp : pb > (Anarchy.evaluate p (m :: []) t).1
              · exact ⟨(Anarchy.evaluate p (m :: []) t).1, m,
                  by simp [stepBest, if_pos hcmp]⟩
              · exact ⟨pb, pm, by simp [stepBest, if_neg hcmp]⟩
      · have hban' : isBannedSan (p.sanAt [] m) = true := by
          revert hban; cases isBannedSan (p.sanAt [] m) <;> simp
        rw [Anarchy.go_cons_skip p t m rest [] calls best hepm' h1 h2 h3 hbongm' hban']
        refine ih _ _ hsubrest hbest ?_
        rcases hsome with ⟨x, hx, hxban⟩ | hb
        · rcases List.mem_cons.mp hx with hx | hx
          · subst hx
            rw [hban'] at hxban
            exact absurd hxban (by simp)
          · exact Or.inl ⟨x, hx, hxban⟩
        · exact Or.inr hb

/-- Loop unfolding: the initial-position opening return (lines 155-158). -/
theorem Anarchy.go_cons_fen1 (p : Position) (t : ℚ) (m : Move) (rest stack : List Move)
    (calls : List (List Move × ℚ)) (best : Option (Int × Move))
    (hep : p.isEpAt stack m = false) (hf : p.fenAt stack = fenStart) :
    Anarchy.go p t (m :: rest) stack calls best = (.uci "e2e4", stack, calls) := by
  simp [Anarchy.go, hep, hf]

/-- Loop unfolding: the 1.e4 e5 opening return (lines 160-161). -/
theorem Anarchy.go_cons_fen2 (p : Position) (t : ℚ) (m : Move) (rest stack : List Move)
    (calls : List (List Move × ℚ)) (best : Option (Int × Move))
    (hep : p.isEpAt stack m = false) (hf : p.fenAt stack = fenRuy1) :
    Anarchy.go p t (m :: rest) stack calls best = (.uci "g1f3", stack, calls) := by
  have hd1 : fenRuy1 ≠ fenStart := by decide
  simp [Anarchy.go, hep, hf, hd1]

/-- Loop unfolding: the 1.e4 e5 2.Nf3 Nc6 opening return (lines 163-164). -/
theorem Anarchy.go_cons_fen3 (p : Position) (t : ℚ) (m : Move) (rest stack : List Move)
    (calls : List (List Move × ℚ)) (best : Option (Int × Move))
    (hep : p.isEpAt stack m = false) (hf : p.fenAt stack = fenRuy2) :
    Anarchy.go p t (m :: rest) stack calls best = (.uci "f1b5", stack, calls) := by
  have hd1 : fenRuy2 ≠ fenStart := by decide
  have hd2 : fenRuy2 ≠ fenRuy1 := by decide
  simp [Anarchy.go, hep, hf, hd1, hd2]

/-- C3: time-budget shrink law.  For the non-sentinel case, with a remaining
time of `T` seconds (the caller passes milliseconds, so `T * 1000`) and a
legal-move count of `N`, the per-move search time computed by
`Anarchy.search` (via `Anarchy.searchTimeOf`) is `(T/10)/N` exactly when
`N * 0.1 > T/10`, and the base constant `0.1` otherwise. -/
theorem claim_C3_time_budget (T : ℚ) (N : Nat) :
    ((N : ℚ) * (1/10) > T / 10 →
      Anarchy.searchTimeOf (.ms (T * 1000)) N = (T / 10) / (N : ℚ)) ∧
    (¬ ((N : ℚ) * (1/10) > T / 10) →
      Anarchy.searchTimeOf (.ms (T * 1000)) N = 1/10) := by
  have ht : (T * 1000) / 1000 = T := by
    rw [mul_div_assoc]
    norm_num
  constructor
  · intro h
    simp only [Anarchy.searchTimeOf, ht]
    rw [if_pos h]
  · intro h
    simp only [Anarchy.searchTimeOf, ht]
    rw [if_neg h]

theorem claim_C3_time_budget_witness :
    Anarchy.searchTimeOf (.ms (1 * 1000)) 2 = (1 / 10) / (2 : ℚ) ∧
    Anarchy.searchTimeOf (.ms (1000 * 1000)) 2 = 1/10 :=
  ⟨(claim_C3_time_budget 1 2).1 (by norm_num),
   (claim_C3_time_budget 1000 2).2 (by norm_num)⟩

/-- C6: push/pop symmetry.  Every push inside `Anarchy.search` is matched by
exactly one pop before the next candidate, so after `search` returns — by
any of the short-circuit rules or the scored fallback — the board's relative
move stack is back to its entry state; since every component of the
position's state (placement, side to move, rights, bookkeeping) is a
function of the base position and that stack, the state equals its value
before the call. -/
theorem claim_C6_push_pop_symmetry (p : Position) (tl : TimeLeft) :
    (Anarchy.search p tl).2.1 = [] :=
  Anarchy.go_stack p (Anarchy.searchTimeOf tl p.legal.length) p.legal [] [] none

/-- C9: `search_with_ponder` selects `wtime` when white is to move and
`btime` otherwise, delegates to `search` with the ponder flag, and its
result does not depend on the increments (the model is pure, so there is
no other effect). -/
theorem claim_C9_search_with_ponder {T I R : Type}
    (searchFn : Position → T → Bool → R) (p : Position)
    (wtime btime : T) (winc binc winc2 binc2 : I) (ponder : Bool) :
    MinimalEngine.search_with_ponder searchFn p wtime btime winc binc ponder
        = searchFn p (if p.turn then wtime else btime) ponder ∧
    MinimalEngine.search_with_ponder searchFn p wtime btime winc binc ponder
        = MinimalEngine.search_with_ponder searchFn p wtime btime winc2 binc2 ponder :=
  ⟨rfl, rfl⟩

/-- C7: opening snapshots.  On any position with at least one legal move and
no en-passant capture available (both hold in every real chess position
whose placement equals one of the three snapshots), if the placement string
equals a snapshot then `Anarchy.search` returns the designated hard-coded
reply — as a raw UCI string — and the evaluation oracle is never invoked. -/
theorem claim_C7_opening_book (p : Position) (tl : TimeLeft)
    (hne : p.legal ≠ [])
    (hep : ∀ m ∈ p.legal, p.isEpAt [] m = false) :
    (p.fenAt [] = fenStart →
      (Anarchy.search p tl).1 = .uci "e2e4" ∧ (Anarchy.search p tl).2.2 = []) ∧
    (p.fenAt [] = fenRuy1 →
      (Anarchy.search p tl).1 = .uci "g1f3" ∧ (Anarchy.search p tl).2.2 = []) ∧
    (p.fenAt [] = fenRuy2 →
      (Anarchy.search p tl).1 = .uci "f1b5" ∧ (Anarchy.search p tl).2.2 = []) := by
  obtain ⟨m, rest, hl⟩ : ∃ m rest, p.legal = m :: rest := by
    cases hlegal : p.legal with
    | nil => exact absurd hlegal hne
    | cons a l => exact ⟨a, l, rfl⟩
  have hepm : p.isEpAt [] m = false := hep m (by rw [hl]; simp)
  unfold Anarchy.search
  rw [hl]
  refine ⟨fun hf => ?_, fun hf => ?_, fun hf => ?_⟩
  · rw [Anarchy.go_cons_fen1 p _ m rest [] [] none hepm hf]
    exact ⟨rfl, rfl⟩
  · rw [Anarchy.go_cons_fen2 p _ m rest [] [] none hepm hf]
    exact ⟨rfl, rfl⟩
  · rw [Anarchy.go_cons_fen3 p _ m rest [] [] none hepm hf]
    exact ⟨rfl, rfl⟩

theorem claim_C7_opening_book_witness :
    (Anarchy.search cposStart (.ms 100000)).1 = .uci "e2e4" ∧
    (Anarchy.search cposStart (.ms 100000)).2.2 = [] :=
  (claim_C7_opening_book cposStart (.ms 100000) (by decide) (by decide)).1 rfl

/-- C10: when no short-circuit rule can fire (no en-passant capture, no
opening-snapshot match, no king-to-e2/e7 SAN) and every legal move's SAN
matches the banned rook-to-a4 pattern, `Anarchy.search` never records a
best move and returns the `None` sentinel, with zero oracle calls. -/
theorem claim_C10_all_banned (p : Position) (tl : TimeLeft)
    (hne : p.legal ≠ [])
    (h1 : p.fenAt [] ≠ fenStart) (h2 : p.fenAt [] ≠ fenRuy1)
    (h3 : p.fenAt [] ≠ fenRuy2)
    (hep : ∀ m ∈ p.legal, p.isEpAt [] m = false)
    (hbong : ∀ m ∈ p.legal, isBongcloud (p.sanAt [] m) = false)
    (hban : ∀ m ∈ p.legal, isBannedSan (p.sanAt [] m) = true) :
    (Anarchy.search p tl).1 = .nomove ∧ (Anarchy.search p tl).2.2 = [] := by
  have hsurv : surv p p.legal = [] := by
    rw [surv, List.filter_eq_nil_iff]
    intro m hm
    simp [hban m hm]
  unfold Anarchy.search
  rw [Anarchy.go_noShort p _ h1 h2 h3 p.legal [] none hep hbong, hsurv]
  exact ⟨rfl, rfl⟩

theorem claim_C10_all_banned_witness :
    (Anarchy.search cposBanned (.ms 100000)).1 = .nomove ∧
    (Anarchy.search cposBanned (.ms 100000)).2.2 = [] :=
  claim_C10_all_banned cposBanned (.ms 100000) (by decide) (by decide)
    (by decide) (by decide) (by decide) (by decide) (by decide)

/-- The attribute names found on the `FillerEngine` class or its bases: the
two methods defined in the class body (`__init__`, `__getattr__`) and the
attributes inherited from `object`. -/
def fillerClassAttrNames : List String :=
  ["__init__", "__getattr__", "__class__", "__dict__", "__doc__",
   "__module__", "__weakref__", "__str__", "__repr__", "__hash__",
   "__eq__", "__ne__", "__lt__", "__le__", "__gt__", "__ge__",
   "__setattr__", "__delattr__", "__getattribute__", "__sizeof__",
   "__reduce__", "__reduce_ex__", "__dir__", "__format__",
   "__init_subclass__", "__subclasshook__", "__new__"]

/-- A concrete shim: instance-attribute values 0, 1, 2, class-level values 9
(bound methods and inherited dunders), and a `notify` that adds 3 to its
argument package. -/
def fillerNat : FillerEngine Nat Nat Nat :=
  { idVal := 0, nameVal := 1, mainVal := 2
    classAttrs := fun s => if s ∈ fillerClassAttrNames then some 9 else none
    mainNotify := fun _ a => a + 3 }

/-- C8 (amended): accessing any attribute that normal Python lookup does not
find — any name other than the instance attributes `id`, `name`,
`main_engine` and the class-level attributes (the methods `__init__` and
`__getattr__` and the dunders inherited from `object`) — yields a callable
that forwards the attribute name and the argument package to the owning
strategy's `notify` and returns its result.  Names that normal lookup
finds never reach `__getattr__` and yield the looked-up value instead —
see the counterexample. -/
theorem claim_C8_filler_forwarding {V Args Ret : Type}
    (e : FillerEngine V Args Ret) (attr : String)
    (h1 : attr ≠ "id") (h2 : attr ≠ "name") (h3 : attr ≠ "main_engine")
    (h4 : e.classAttrs attr = none) :
    FillerEngine.getattribute e attr
      = .callable (fun args => e.mainNotify attr args) := by
  unfold FillerEngine.getattribute
  rw [if_neg h1, if_neg h2, if_neg h3, h4]

theorem claim_C8_filler_forwarding_witness :
    FillerEngine.getattribute fillerNat "ping"
      = .callable (fun args => fillerNat.mainNotify "ping" args) :=
  claim_C8_filler_forwarding fillerNat "ping" (by decide) (by decide) (by decide)
    (by decide)

/-- C8 counterexample: two attribute names on which access does not yield a
forwarding callable — `"id"` is an instance attribute (access returns the
stored id dict) and `"__init__"` is a class attribute (normal lookup
returns the bound method), so `__getattr__` fires for neither. -/
theorem claim_C8_counterexample :
    FillerEngine.getattribute fillerNat "id" = .value 0 ∧
    (∀ f : Nat → Nat, FillerEngine.getattribute fillerNat "id" ≠ .callable f) ∧
    FillerEngine.getattribute fillerNat "__init__" = .value 9 ∧
    ∀ f : Nat → Nat,
      FillerEngine.getattribute fillerNat "__init__" ≠ .callable f := by
  refine ⟨rfl, fun f h => ?_, rfl, fun f h => ?_⟩
  · rw [show FillerEngine.getattribute fillerNat "id" = .value 0 from rfl] at h
    exact AttrVal.noConfusion h
  · rw [show FillerEngine.getattribute fillerNat "__init__" = .value 9
      from rfl] at h
    exact AttrVal.noConfusion h

/-- C1 (amended): on a position with a non-empty legal-move set, `RandomMove`,
`Alphabetical` and `FirstMove` return a member of that set; `Anarchy` returns
a member of that set provided the placement string matches no opening
snapshot and some legal move survives the banned rook-a4 filter.  (In the
opening-snapshot cases `Anarchy` instead returns the reply as a raw UCI
string — see the counterexample — and when every legal move is banned it
returns `None`, the edge case of C10.) -/
theorem claim_C1_returns_legal :
    (∀ (p : Position) (r : Nat), p.legal ≠ [] →
      ∃ m ∈ p.legal, RandomMove.search p r = some m) ∧
    (∀ p : Position, p.legal ≠ [] →
      ∃ m ∈ p.legal, Alphabetical.search p = some m) ∧
    (∀ p : Position, p.legal ≠ [] →
      ∃ m ∈ p.legal, FirstMove.search p = some m) ∧
    (∀ (p : Position) (tl : TimeLeft),
      p.fenAt [] ≠ fenStart → p.fenAt [] ≠ fenRuy1 → p.fenAt [] ≠ fenRuy2 →
      (∃ m ∈ p.legal, isBannedSan (p.sanAt [] m) = false) →
      ∃ m ∈ p.legal, (Anarchy.search p tl).1 = .mv m) := by
  refine ⟨?_, ?_, ?_, ?_⟩
  · intro p r h
    have hlen : 0 < p.legal.length := List.length_pos.mpr h
    have hlt : r % p.legal.length < p.legal.length := Nat.mod_lt r hlen
    refine ⟨p.legal.get ⟨r % p.legal.length, hlt⟩, List.get_mem _ _ _, ?_⟩
    rw [RandomMove.search, List.get?_eq_get hlt]
  · intro p h
    have hperm := List.mergeSort_perm p.legal
      (fun a b => p.sanAt [] a ≤ p.sanAt [] b)
    have hne : p.legal.mergeSort (fun a b => p.sanAt [] a ≤ p.sanAt [] b) ≠ [] := by
      intro hnil
      rw [hnil] at hperm
      exact h (hperm.symm.eq_nil)
    refine ⟨(p.legal.mergeSort (fun a b => p.sanAt [] a ≤ p.sanAt [] b)).head hne,
      ?_, ?_⟩
    · exact hperm.mem_iff.mp (List.head_mem hne)
    · rw [Alphabetical.search, List.head?_eq_head hne]
  · intro p h
    have hperm := List.mergeSort_perm p.legal (fun a b => a.uci ≤ b.uci)
    have hne : p.legal.mergeSort (fun a b => a.uci ≤ b.uci) ≠ [] := by
      intro hnil
      rw [hnil] at hperm
      exact h (hperm.symm.eq_nil)
    refine ⟨(p.legal.mergeSort (fun a b => a.uci ≤ b.uci)).head hne, ?_, ?_⟩
    · exact hperm.mem_iff.mp (List.head_mem hne)
    · rw [FirstMove.search, List.head?_eq_head hne]
  · intro p tl h1 h2 h3 hs
    exact Anarchy.go_mv p _ p.legal h1 h2 h3 p.legal [] none
      (fun m hm => hm) (fun b bm hb => absurd hb (by simp)) (Or.inl hs)

theorem claim_C1_returns_legal_witness :
    (∃ m ∈ cposC5.legal, RandomMove.search cposC5 0 = some m) ∧
    (∃ m ∈ cposC5.legal, Alphabetical.search cposC5 = some m) ∧
    (∃ m ∈ cposC5.legal, FirstMove.search cposC5 = some m) ∧
    (∃ m ∈ cposC5.legal, (Anarchy.search cposC5 (.ms 100000)).1 = .mv m) :=
  ⟨claim_C1_returns_legal.1 cposC5 0 (by decide),
   claim_C1_returns_legal.2.1 cposC5 (by decide),
   claim_C1_returns_legal.2.2.1 cposC5 (by decide),
   claim_C1_returns_legal.2.2.2 cposC5 (.ms 100000) (by decide) (by decide)
     (by decide) ⟨mvNf3, by decide, by decide⟩⟩

/-- C1 counterexample: on the initial position (non-empty legal-move set)
`Anarchy.search` returns the raw UCI string `"e2e4"` — a `str`, not a
member of the legal-move set. -/
theorem claim_C1_counterexample :
    cposStart.legal ≠ [] ∧
    (Anarchy.search cposStart (.ms 100000)).1 = .uci "e2e4" ∧
    ∀ m ∈ cposStart.legal,
      (Anarchy.search cposStart (.ms 100000)).1 ≠ .mv m := by decide

/-- C2 (amended): when the legal-move enumeration is `l1 ++ e :: l2` with `e`
an en-passant capture, no opening snapshot matches and no candidate of `l1`
is itself an en-passant capture or a bongcloud king move, `Anarchy.search`
returns `e`; each non-banned candidate of `l1` (the candidates enumerated
before `e`) is scored with one oracle call, and no candidate at or after `e`
is ever scored. -/
theorem claim_C2_forced_en_passant (p : Position) (tl : TimeLeft)
    (l1 : List Move) (e : Move) (l2 : List Move)
    (hl : p.legal = l1 ++ e :: l2)
    (he : p.isEpAt [] e = true)
    (hep1 : ∀ m ∈ l1, p.isEpAt [] m = false)
    (hbong1 : ∀ m ∈ l1, isBongcloud (p.sanAt [] m) = false)
    (h1 : p.fenAt [] ≠ fenStart) (h2 : p.fenAt [] ≠ fenRuy1)
    (h3 : p.fenAt [] ≠ fenRuy2) :
    (Anarchy.search p tl).1 = .mv e ∧
    (Anarchy.search p tl).2.2 =
      (surv p l1).map
        (fun m => (([m] : List Move),
          Anarchy.searchTimeOf tl p.legal.length - 1/100)) := by
  unfold Anarchy.search
  rw [hl, Anarchy.go_ep p _ h1 h2 h3 l1 e l2 [] none he hep1 hbong1]
  exact ⟨rfl, by simp⟩

theorem claim_C2_forced_en_passant_witness :
    (Anarchy.search cposEp (.ms 100000)).1 = .mv mvEp ∧
    (Anarchy.search cposEp (.ms 100000)).2.2 =
      (surv cposEp [mvNf3]).map
        (fun m => (([m] : List Move),
          Anarchy.searchTimeOf (.ms 100000) cposEp.legal.length - 1/100)) :=
  claim_C2_forced_en_passant cposEp (.ms 100000) [mvNf3] mvEp []
    (by decide) (by decide) (by decide) (by decide) (by decide) (by decide)
    (by decide)

/-- C2 counterexample: in `cposEp` exactly one candidate is an en-passant
capture, and `Anarchy.search` does return it — but the candidate enumerated
before it is scored first, so the evaluation oracle is invoked (once), not
zero times as the claim states. -/
theorem claim_C2_counterexample :
    (cposEp.legal.filter (fun m => cposEp.isEpAt [] m)).length = 1 ∧
    (Anarchy.search cposEp (.ms 100000)).1 = .mv mvEp ∧
    (Anarchy.search cposEp (.ms 100000)).2.2 ≠ [] := by decide

/-- Whether a SAN string denotes a rook move to the square a4: it starts
with `'R'` and its destination square — the final two characters once a
trailing check (`+`) or mate (`#`) mark is removed — is a4.  (SAN appends
the mark mandatorily when the move gives check or mate.) -/
def denotesRookToA4 (s : String) : Bool :=
  s.front = 'R' &&
    (if s.takeRight 1 = "+" || s.takeRight 1 = "#" then s.dropRight 1
     else s).takeRight 2 = "a4"

/-- C4: the code's own comment says `never play rook a4`, but the filter on
line 171 compares the SAN's last two characters with `"a4"`, and the SAN of
a checking rook move to a4 ends in `"4+"`.  In `cposRa4` (black king a8,
white rook b4, so Rb4-a4 is check, SAN `"Ra4+"`) the rook-to-a4 candidate is
scored — the oracle is invoked on it — and returned as the selected move. -/
theorem claim_C4_rook_a4_check_escapes :
    denotesRookToA4 (cposRa4.sanAt [] mvRa4) = true ∧
    isBannedSan (cposRa4.sanAt [] mvRa4) = false ∧
    (Anarchy.search cposRa4 (.ms 100000)).1 = .mv mvRa4 ∧
    (Anarchy.search cposRa4 (.ms 100000)).2.2 ≠ [] := by decide

/-- C5: the scored fallback.  When no short-circuit rule can fire and at
least one candidate survives the banned filter, `Anarchy.search` returns
the earliest-enumerated surviving candidate whose post-move relative score
is optimal under the code's strict comparison
(`bestEvaluation > evaluation`): the post-move relative score is reported
from the opponent's perspective, so "strictly better" is "strictly
smaller", every survivor enumerated before the winner scores strictly
worse (greater), and every survivor after it scores no better — ties keep
the earliest-found candidate. -/
theorem claim_C5_scored_fallback (p : Position) (tl : TimeLeft)
    (h1 : p.fenAt [] ≠ fenStart) (h2 : p.fenAt [] ≠ fenRuy1)
    (h3 : p.fenAt [] ≠ fenRuy2)
    (hep : ∀ m ∈ p.legal, p.isEpAt [] m = false)
    (hbong : ∀ m ∈ p.legal, isBongcloud (p.sanAt [] m) = false)
    (hsurv : surv p p.legal ≠ []) :
    ∃ pre best post,
      surv p p.legal = pre ++ best :: post ∧
      (Anarchy.search p tl).1 = .mv best ∧
      (∀ x ∈ pre,
        postScore p (Anarchy.searchTimeOf tl p.legal.length) best <
          postScore p (Anarchy.searchTimeOf tl p.legal.length) x) ∧
      (∀ x ∈ post,
        postScore p (Anarchy.searchTimeOf tl p.legal.length) best ≤
          postScore p (Anarchy.searchTimeOf tl p.legal.length) x) := by
  obtain ⟨c, l2, hcl⟩ : ∃ c l2, surv p p.legal = c :: l2 := by
    cases hs : surv p p.legal with
    | nil => exact absurd hs hsurv
    | cons a l => exact ⟨a, l, rfl⟩
  obtain ⟨pre, post, heq, hpre, hpost⟩ :=
    bestOf_spec (postScore p (Anarchy.searchTimeOf tl p.legal.length)) l2 c
  refine ⟨pre, bestOf (postScore p (Anarchy.searchTimeOf tl p.legal.length)) c l2,
    post, ?_, ?_, hpre, hpost⟩
  · rw [hcl, heq]
  · unfold Anarchy.search
    rw [Anarchy.go_noShort p _ h1 h2 h3 p.legal [] none hep hbong, hcl,
      foldl_stepBest_none]
    rfl

theorem claim_C5_scored_fallback_witness :
    ∃ pre best post,
      surv cposC5 cposC5.legal = pre ++ best :: post ∧
      (Anarchy.search cposC5 (.ms 100000)).1 = .mv best ∧
      (∀ x ∈ pre,
        postScore cposC5 (Anarchy.searchTimeOf (.ms 100000) cposC5.legal.length)
            best <
          postScore cposC5 (Anarchy.searchTimeOf (.ms 100000) cposC5.legal.length)
            x) ∧
      (∀ x ∈ post,
        postScore cposC5 (Anarchy.searchTimeOf (.ms 100000) cposC5.legal.length)
            best ≤
          postScore cposC5 (Anarchy.searchTimeOf (.ms 100000) cposC5.legal.length)
            x) :=
  claim_C5_scored_fallback cposC5 (.ms 100000) (by decide) (by decide)
    (by decide) (by decide) (by decide) (by decide)
